import Mathlib

/-!
Shallow embedding of `src/layers.rs` (a layer-tree data model for a
compositing engine).  The source language uses reference-counted mutable
cells (`@mut`); we embed the mutable object graph as an arena (`Heap`, a
list of layer nodes addressed by index), so the `Option<Layer>` links of
the source become `Option LayerId`.  Field assignments of the source are
rendered as field-wise heap updates, and the `assert` statements of the
source abort execution, rendered as returning the heap at the point of
failure together with a `false` success flag.
-/

/-- Layer identifier: an index into the arena that models the
reference-counted mutable cells of the source. -/
abbrev LayerId := Nat

/-- `Format` enum from the source: byte layout of pixel data. -/
inductive Format where
  | ARGB32Format
  | RGB24Format
deriving Repr, DecidableEq

/-- 4×4 matrix (the source uses `Matrix4<f32>` from the geom crate; the
operations in scope only store and read matrices, never compute with the
entries, so the entries are modelled as rationals). -/
structure Matrix4 where
  m11 : ℚ
  m12 : ℚ
  m13 : ℚ
  m14 : ℚ
  m21 : ℚ
  m22 : ℚ
  m23 : ℚ
  m24 : ℚ
  m31 : ℚ
  m32 : ℚ
  m33 : ℚ
  m34 : ℚ
  m41 : ℚ
  m42 : ℚ
  m43 : ℚ
  m44 : ℚ
deriving Repr, DecidableEq

/-- `identity()` from the geom crate: the identity matrix. -/
def identityMatrix : Matrix4 :=
  ⟨1, 0, 0, 0,
   0, 1, 0, 0,
   0, 0, 1, 0,
   0, 0, 0, 1⟩

/-- `Size2D<uint>` from the geom crate. -/
structure Size2D where
  width : Nat
  height : Nat
deriving Repr, DecidableEq

/-- `CommonLayer` struct: tree links plus local transform. -/
structure CommonLayer where
  parent : Option LayerId
  prev_sibling : Option LayerId
  next_sibling : Option LayerId
  transform : Matrix4
deriving Repr, DecidableEq

/-- The `CommonLayer()` constructor function: empty links, identity
transform. -/
def mkCommonLayer : CommonLayer :=
  { parent := none
    prev_sibling := none
    next_sibling := none
    transform := identityMatrix }

/-- `CommonLayer::set_transform`: replaces the transform field. -/
def CommonLayer.set_transform (self : CommonLayer) (new_transform : Matrix4) :
    CommonLayer :=
  { self with transform := new_transform }

/-- A layer node in the arena: the `Layer` enum of the source, with each
variant's pointed-to struct inlined.  `imageNode` stores the id of its
`Image`, `tiledNode` the ids of its tile `Image`s. -/
inductive LayerNode where
  | containerNode (common : CommonLayer)
      (first_child : Option LayerId) (last_child : Option LayerId)
  | imageNode (common : CommonLayer) (image : Nat)
  | tiledNode (common : CommonLayer) (tiles : List Nat) (tiles_across : Nat)
deriving Repr, DecidableEq

/-- Projection of the embedded `CommonLayer` of any variant. -/
def LayerNode.common : LayerNode → CommonLayer
  | .containerNode cm _ _ => cm
  | .imageNode cm _ => cm
  | .tiledNode cm _ _ => cm

/-- Replace the embedded `CommonLayer`, keeping the variant payload. -/
def LayerNode.setCommon : LayerNode → CommonLayer → LayerNode
  | .containerNode _ fc lc, cm => .containerNode cm fc lc
  | .imageNode _ img, cm => .imageNode cm img
  | .tiledNode _ ts ta, cm => .tiledNode cm ts ta

/-- `Layer::with_common`: dispatches on the variant and hands the visitor
mutable access to that variant's embedded `CommonLayer`, returning the
visitor's result.  Mutable access is rendered by state passing: the
visitor returns the updated `CommonLayer` together with its result. -/
def LayerNode.with_common {T : Type} :
    LayerNode → (CommonLayer → CommonLayer × T) → LayerNode × T
  | .containerNode cm fc lc, f =>
    let r := f cm
    (.containerNode r.1 fc lc, r.2)
  | .imageNode cm img, f =>
    let r := f cm
    (.imageNode r.1 img, r.2)
  | .tiledNode cm ts ta, f =>
    let r := f cm
    (.tiledNode r.1 ts ta, r.2)

/-- The arena of layer nodes modelling the `@mut` object graph. -/
abbrev Heap := List LayerNode

/-- Read the `CommonLayer` of the node with id `i`. -/
def commonAt (h : Heap) (i : LayerId) : Option CommonLayer :=
  (h[i]?).map LayerNode.common

/-- Field assignment `<node i>.common.prev_sibling = v`. -/
def setPrev (h : Heap) (i : LayerId) (v : Option LayerId) : Heap :=
  match h[i]? with
  | none => h
  | some nd => h.set i (nd.setCommon { nd.common with prev_sibling := v })

/-- Field assignment `<node i>.common.next_sibling = v`. -/
def setNext (h : Heap) (i : LayerId) (v : Option LayerId) : Heap :=
  match h[i]? with
  | none => h
  | some nd => h.set i (nd.setCommon { nd.common with next_sibling := v })

/-- Read `first_child` of the container node with id `c`. -/
def firstChildAt (h : Heap) (c : LayerId) : Option LayerId :=
  match h[c]? with
  | some (.containerNode _ fc _) => fc
  | _ => none

/-- Read `last_child` of the container node with id `c`. -/
def lastChildAt (h : Heap) (c : LayerId) : Option LayerId :=
  match h[c]? with
  | some (.containerNode _ _ lc) => lc
  | _ => none

/-- Field assignment `self.first_child = v` on the container node `c`. -/
def setFirstChild (h : Heap) (c : LayerId) (v : Option LayerId) : Heap :=
  match h[c]? with
  | some (.containerNode cm _ lc) => h.set c (.containerNode cm v lc)
  | _ => h

/-- Field assignment `self.last_child = v` on the container node `c`. -/
def setLastChild (h : Heap) (c : LayerId) (v : Option LayerId) : Heap :=
  match h[c]? with
  | some (.containerNode cm fc _) => h.set c (.containerNode cm fc v)
  | _ => h

/-- The `ContainerLayer()` constructor: fresh common, no children. -/
def mkContainerLayer : LayerNode :=
  .containerNode mkCommonLayer none none

/-- `ContainerLayer::add_child` on the container node `c`, inserting the
node `n`.  Returns the heap after the call together with a success flag:
`false` means one of the `assert` statements fired (the source aborts
there; every assert textually precedes every mutation, so the heap
returned on failure is the heap at the abort point, which is the input
heap).  The guard arms for ids that are not in the arena are
unreachable in the source, where ids are references. -/
def add_child (h : Heap) (c : LayerId) (n : LayerId) : Heap × Bool :=
  match commonAt h n with
  | none => (h, false)
  | some new_child_common =>
    if new_child_common.parent.isSome then (h, false)
    else if new_child_common.prev_sibling.isSome then (h, false)
    else if new_child_common.next_sibling.isSome then (h, false)
    else
      match h[c]? with
      | some (.containerNode _ fc _) =>
        match fc with
        | none =>
          let h1 := setFirstChild h c (some n)
          let h2 :=
            match lastChildAt h1 c with
            | none => setLastChild h1 c (some n)
            | some _ => h1
          (h2, true)
        | some first_child =>
          match commonAt h first_child with
          | none => (h, false)
          | some first_child_common =>
            if first_child_common.prev_sibling.isSome then (h, false)
            else
              let h1 := setPrev h first_child (some n)
              let h2 := setNext h1 n (some first_child)
              let h3 := setFirstChild h2 c (some n)
              let h4 :=
                match lastChildAt h3 c with
                | none => setLastChild h3 c (some n)
                | some _ => h3
              (h4, true)
      | _ => (h, false)

/-- Read `next_sibling` of the node `i` (the `child.with_common(|x|
x.next_sibling)` step of the traversal loop). -/
def nextOf (h : Heap) (i : LayerId) : Option LayerId :=
  (commonAt h i).bind CommonLayer.next_sibling

/-- The `while` loop of `each_child`, from the current `child_opt`.
Returns the list of children on which the visitor was invoked, in
invocation order.  The loop of the source has no termination measure (a
corrupted heap can make it cycle); `fuel` bounds the number of
iterations, and every theorem below supplies enough fuel for the chain
being traversed, so the bound is never hit there. -/
def eachChildFrom (h : Heap) (f : LayerId → Bool) :
    Option LayerId → Nat → List LayerId
  | _, 0 => []
  | none, _ => []
  | some child, fuel + 1 =>
    if f child then child :: eachChildFrom h f (nextOf h child) fuel
    else [child]

/-- `ContainerLayer::each_child` on the container node `c`: starts at
`first_child` and follows `next_sibling`, invoking the visitor on each
child until it returns `false`.  Result: the visited children in order.
Fuel `h.length` suffices for any duplicate-free chain of ids of `h`. -/
def each_child (h : Heap) (c : LayerId) (f : LayerId → Bool) :
    List LayerId :=
  eachChildFrom h f (firstChildAt h c) h.length

/-- `Image` struct: a shared `ImageData` reference (modelled by an id)
plus an optional GPU texture handle (`GLuint`, modelled as `Nat`). -/
structure Image where
  data : Nat
  texture : Option Nat
deriving Repr, DecidableEq

/-- `Image::new`: wraps the data, no texture. -/
def Image.new (data : Nat) : Image :=
  { data := data, texture := none }

/-- The `drop` destructor body of `Image`, observed through the GPU
texture-deletion collaborator: returns the list of `delete_textures`
invocations the destructor performs, each invocation recorded as the
slice of handles it is passed. -/
def Image.dropCalls (self : Image) : List (List Nat) :=
  match self.texture with
  | none => []
  | some texture => [[texture]]

/-- `BasicImageData` struct: owns dimensions, stride, format and the
byte buffer (bytes modelled as `Nat`; the code stores them verbatim and
never computes with them). -/
structure BasicImageData where
  size : Size2D
  stride : Nat
  format : Format
  data : List Nat
deriving Repr, DecidableEq

/-- `BasicImageData::new`: stores the arguments verbatim. -/
def BasicImageData.new (size : Size2D) (stride : Nat) (format : Format)
    (data : List Nat) : BasicImageData :=
  { size := size, stride := stride, format := format, data := data }

/-- `size()` of the `ImageData` impl for `BasicImageData`. -/
def BasicImageData.size' (self : BasicImageData) : Size2D := self.size

/-- `stride()` of the `ImageData` impl for `BasicImageData`. -/
def BasicImageData.stride' (self : BasicImageData) : Nat := self.stride

/-- `format()` of the `ImageData` impl for `BasicImageData`. -/
def BasicImageData.format' (self : BasicImageData) : Format := self.format

/-- `with_data(f)` of the `ImageData` impl for `BasicImageData`: hands
the owned buffer to the read callback and returns its result (the
source callback returns unit; the result type is kept generic so the
delivered bytes are observable). -/
def BasicImageData.with_data {T : Type} (self : BasicImageData)
    (f : List Nat → T) : T :=
  f self.data

/-- The `ImageLayer(image)` constructor: fresh common plus the image. -/
def mkImageLayer (image : Nat) : LayerNode :=
  .imageNode mkCommonLayer image

/-- The `TiledImageLayer(in_tiles, tiles_across)` constructor: copies
the input tiles one by one into a fresh vector (the `for ... .each`
push loop), fresh common, `tiles_across` stored verbatim. -/
def mkTiledImageLayer (in_tiles : List Nat) (tiles_across : Nat) :
    LayerNode :=
  let tiles := in_tiles.foldl (fun acc tile => acc.concat tile) []
  .tiledNode mkCommonLayer tiles tiles_across

/-- Specification predicate (Boolean, for evaluation): the ids `l` form
a doubly-linked sibling chain in `h` whose first element has
`prev_sibling = prev`, in which each node's `next_sibling` points at the
next list element (and is empty at the end) and each node's
`prev_sibling` points back at the previous one. -/
def chainB (h : Heap) : Option LayerId → List LayerId → Bool
  | _, [] => true
  | prev, x :: xs =>
    match commonAt h x with
    | none => false
    | some cm =>
      decide (cm.prev_sibling = prev) &&
      decide (cm.next_sibling = xs.head?) &&
      chainB h (some x) xs

/-- A sequence of `add_child` calls on the container `c`, in order.
Succeeds only if every individual call succeeds. -/
def addAll (h : Heap) (c : LayerId) : List LayerId → Heap × Bool
  | [] => (h, true)
  | n :: ns =>
    let r := add_child h c n
    let r2 := addAll r.1 c ns
    (r2.1, r.2 && r2.2)

/-- Invariant tying the container `c` to its child list `l` (in
traversal order): `first_child`/`last_child` frame the chain, the
sibling links encode `l`, and the child ids are distinct, in the arena,
and distinct from `c`. -/
def ContainerInv (h : Heap) (c : LayerId) (l : List LayerId) : Prop :=
  (∃ cm, h[c]? = some (.containerNode cm l.head? l.getLast?)) ∧
  chainB h none l = true ∧
  l.Nodup ∧ (∀ i ∈ l, i < h.length ∧ i ≠ c)

/-- Decidable check that node `i` is fully detached: it exists in the
arena and has no parent, no prev-sibling and no next-sibling (the
documented precondition of `add_child`). -/
def detachedAt (h : Heap) (i : LayerId) : Bool :=
  match commonAt h i with
  | none => false
  | some cm =>
    cm.parent.isNone && cm.prev_sibling.isNone && cm.next_sibling.isNone

theorem LayerNode.common_setCommon (nd : LayerNode) (cm : CommonLayer) :
    (nd.setCommon cm).common = cm := by
  cases nd <;> rfl

theorem length_setPrev (h : Heap) (j : LayerId) (v : Option LayerId) :
    (setPrev h j v).length = h.length := by
  unfold setPrev
  cases h[j]? <;> simp

theorem length_setNext (h : Heap) (j : LayerId) (v : Option LayerId) :
    (setNext h j v).length = h.length := by
  unfold setNext
  cases h[j]? <;> simp

theorem length_setFirstChild (h : Heap) (c : LayerId) (v : Option LayerId) :
    (setFirstChild h c v).length = h.length := by
  unfold setFirstChild
  rcases hc : h[c]? with _ | nd
  · rfl
  · cases nd <;> simp

theorem length_setLastChild (h : Heap) (c : LayerId) (v : Option LayerId) :
    (setLastChild h c v).length = h.length := by
  unfold setLastChild
  rcases hc : h[c]? with _ | nd
  · rfl
  · cases nd <;> simp

theorem commonAt_setPrev_ne (h : Heap) (j i : LayerId) (v : Option LayerId)
    (hne : i ≠ j) : commonAt (setPrev h j v) i = commonAt h i := by
  unfold setPrev commonAt
  rcases hj : h[j]? with _ | nd
  · rfl
  · rw [List.getElem?_set_ne (fun e => hne e.symm)]

theorem commonAt_setNext_ne (h : Heap) (j i : LayerId) (v : Option LayerId)
    (hne : i ≠ j) : commonAt (setNext h j v) i = commonAt h i := by
  unfold setNext commonAt
  rcases hj : h[j]? with _ | nd
  · rfl
  · rw [List.getElem?_set_ne (fun e => hne e.symm)]

theorem lt_length_of_getElem_eq (h : Heap) (j : LayerId) (nd : LayerNode)
    (hj : h[j]? = some nd) : j < h.length := by
  by_contra hc
  push_neg at hc
  rw [List.getElem?_eq_none hc] at hj
  exact Option.noConfusion hj

theorem commonAt_setPrev_self (h : Heap) (j : LayerId) (v : Option LayerId) :
    commonAt (setPrev h j v) j =
      (commonAt h j).map (fun cm => { cm with prev_sibling := v }) := by
  unfold setPrev commonAt
  rcases hj : h[j]? with _ | nd
  · simp [hj]
  · have hlt : j < h.length := lt_length_of_getElem_eq h j nd hj
    rw [List.getElem?_set_self hlt]
    simp [hj, LayerNode.common_setCommon]

theorem commonAt_setNext_self (h : Heap) (j : LayerId) (v : Option LayerId) :
    commonAt (setNext h j v) j =
      (commonAt h j).map (fun cm => { cm with next_sibling := v }) := by
  unfold setNext commonAt
  rcases hj : h[j]? with _ | nd
  · simp [hj]
  · have hlt : j < h.length := lt_length_of_getElem_eq h j nd hj
    rw [List.getElem?_set_self hlt]
    simp [hj, LayerNode.common_setCommon]

theorem getElem_setPrev_self (h : Heap) (j : LayerId) (v : Option LayerId)
    (nd : LayerNode) (hj : h[j]? = some nd) :
    (setPrev h j v)[j]? =
      some (nd.setCommon { nd.common with prev_sibling := v }) := by
  unfold setPrev
  rw [hj]
  exact List.getElem?_set_self (lt_length_of_getElem_eq h j nd hj)

theorem getElem_setNext_self (h : Heap) (j : LayerId) (v : Option LayerId)
    (nd : LayerNode) (hj : h[j]? = some nd) :
    (setNext h j v)[j]? =
      some (nd.setCommon { nd.common with next_sibling := v }) := by
  unfold setNext
  rw [hj]
  exact List.getElem?_set_self (lt_length_of_getElem_eq h j nd hj)

theorem getElem_setPrev_ne (h : Heap) (j i : LayerId) (v : Option LayerId)
    (hne : i ≠ j) : (setPrev h j v)[i]? = h[i]? := by
  unfold setPrev
  rcases hj : h[j]? with _ | nd
  · rfl
  · exact List.getElem?_set_ne (fun e => hne e.symm)

theorem getElem_setNext_ne (h : Heap) (j i : LayerId) (v : Option LayerId)
    (hne : i ≠ j) : (setNext h j v)[i]? = h[i]? := by
  unfold setNext
  rcases hj : h[j]? with _ | nd
  · rfl
  · exact List.getElem?_set_ne (fun e => hne e.symm)

theorem getElem_setFirstChild_self (h : Heap) (c : LayerId)
    (v : Option LayerId) (cm : CommonLayer) (fc lc : Option LayerId)
    (hc : h[c]? = some (.containerNode cm fc lc)) :
    (setFirstChild h c v)[c]? = some (.containerNode cm v lc) := by
  unfold setFirstChild
  rw [hc]
  exact List.getElem?_set_self
    (lt_length_of_getElem_eq h c (.containerNode cm fc lc) hc)

theorem getElem_setLastChild_self (h : Heap) (c : LayerId)
    (v : Option LayerId) (cm : CommonLayer) (fc lc : Option LayerId)
    (hc : h[c]? = some (.containerNode cm fc lc)) :
    (setLastChild h c v)[c]? = some (.containerNode cm fc v) := by
  unfold setLastChild
  rw [hc]
  exact List.getElem?_set_self
    (lt_length_of_getElem_eq h c (.containerNode cm fc lc) hc)

theorem getElem_setFirstChild_ne (h : Heap) (c i : LayerId)
    (v : Option LayerId) (hne : i ≠ c) :
    (setFirstChild h c v)[i]? = h[i]? := by
  unfold setFirstChild
  rcases hc : h[c]? with _ | nd
  · rfl
  · cases nd with
    | containerNode cm fc lc => exact List.getElem?_set_ne (fun e => hne e.symm)
    | imageNode cm img => rfl
    | tiledNode cm ts ta => rfl

theorem getElem_setLastChild_ne (h : Heap) (c i : LayerId)
    (v : Option LayerId) (hne : i ≠ c) :
    (setLastChild h c v)[i]? = h[i]? := by
  unfold setLastChild
  rcases hc : h[c]? with _ | nd
  · rfl
  · cases nd with
    | containerNode cm fc lc => exact List.getElem?_set_ne (fun e => hne e.symm)
    | imageNode cm img => rfl
    | tiledNode cm ts ta => rfl

theorem commonAt_setFirstChild (h : Heap) (c i : LayerId)
    (v : Option LayerId) :
    commonAt (setFirstChild h c v) i = commonAt h i := by
  by_cases hic : i = c
  · subst hic
    unfold commonAt
    rcases hc : h[i]? with _ | nd
    · simp [setFirstChild, hc]
    · cases nd with
      | containerNode cm fc lc =>
        rw [getElem_setFirstChild_self h i v cm fc lc hc]
        rfl
      | imageNode cm img => simp [setFirstChild, hc]
      | tiledNode cm ts ta => simp [setFirstChild, hc]
  · unfold commonAt
    rw [getElem_setFirstChild_ne h c i v hic]

theorem commonAt_setLastChild (h : Heap) (c i : LayerId)
    (v : Option LayerId) :
    commonAt (setLastChild h c v) i = commonAt h i := by
  by_cases hic : i = c
  · subst hic
    unfold commonAt
    rcases hc : h[i]? with _ | nd
    · simp [setLastChild, hc]
    · cases nd with
      | containerNode cm fc lc =>
        rw [getElem_setLastChild_self h i v cm fc lc hc]
        rfl
      | imageNode cm img => simp [setLastChild, hc]
      | tiledNode cm ts ta => simp [setLastChild, hc]
  · unfold commonAt
    rw [getElem_setLastChild_ne h c i v hic]

theorem chainB_congr (h h' : Heap) (l : List LayerId)
    (hsame : ∀ x ∈ l, commonAt h' x = commonAt h x) :
    ∀ prev, chainB h' prev l = chainB h prev l := by
  induction l with
  | nil => intro prev; rfl
  | cons x xs ih =>
    intro prev
    have hx : commonAt h' x = commonAt h x := hsame x (by simp)
    have ihx := ih (fun y hy => hsame y (by simp [hy]))
    simp only [chainB, hx, ihx]

theorem eachChildFrom_of_chainB (h : Heap) (f : LayerId → Bool)
    (l : List LayerId) :
    ∀ prev fuel, chainB h prev l = true → l.length ≤ fuel →
      (∀ x ∈ l, f x = true) →
      eachChildFrom h f l.head? fuel = l := by
  induction l with
  | nil =>
    intro prev fuel _ _ _
    cases fuel <;> rfl
  | cons x xs ih =>
    intro prev fuel hchain hfuel hf
    rcases fuel with _ | fuel
    · simp at hfuel
    · simp only [chainB] at hchain
      rcases hcm : commonAt h x with _ | cm
      · rw [hcm] at hchain
        exact absurd hchain (by simp)
      · rw [hcm] at hchain
        simp only [Bool.and_eq_true, decide_eq_true_eq] at hchain
        obtain ⟨⟨hprev, hnext⟩, hrest⟩ := hchain
        have hfx : f x = true := hf x (by simp)
        simp only [List.head?_cons, eachChildFrom, hfx, if_true]
        have hnx : nextOf h x = xs.head? := by
          simp [nextOf, hcm, hnext]
        rw [hnx]
        have hrec := ih (some x) fuel hrest (by simpa using hfuel)
          (fun y hy => hf y (by simp [hy]))
        rw [hrec]

theorem length_le_of_nodup_lt (l : List LayerId) (N : Nat) (hnd : l.Nodup)
    (hlt : ∀ x ∈ l, x < N) : l.length ≤ N := by
  have hcard : l.toFinset.card = l.length := List.toFinset_card_of_nodup hnd
  have hsub : l.toFinset ⊆ Finset.range N := by
    intro x hx
    rw [List.mem_toFinset] at hx
    rw [Finset.mem_range]
    exact hlt x hx
  have := Finset.card_le_card hsub
  rw [hcard, Finset.card_range] at this
  exact this

theorem add_child_result_empty (h : Heap) (c n : LayerId) (cm : CommonLayer)
    (ncm : CommonLayer)
    (hc : h[c]? = some (.containerNode cm none none))
    (hncm : commonAt h n = some ncm)
    (hp : ncm.parent = none) (hpr : ncm.prev_sibling = none)
    (hnx : ncm.next_sibling = none) :
    add_child h c n =
      (setLastChild (setFirstChild h c (some n)) c (some n), true) := by
  have h1c : (setFirstChild h c (some n))[c]? =
      some (.containerNode cm (some n) none) :=
    getElem_setFirstChild_self h c (some n) cm none none hc
  have hlast : lastChildAt (setFirstChild h c (some n)) c = none := by
    unfold lastChildAt
    rw [h1c]
  unfold add_child
  rw [hncm]
  simp only [hp, hpr, hnx, Option.isSome_none, Bool.false_eq_true, if_false,
    hc, hlast]

theorem add_child_result_cons (h : Heap) (c n x z : LayerId)
    (cm ncm xcm : CommonLayer)
    (hc : h[c]? = some (.containerNode cm (some x) (some z)))
    (hncm : commonAt h n = some ncm)
    (hp : ncm.parent = none) (hpr : ncm.prev_sibling = none)
    (hnx : ncm.next_sibling = none)
    (hxcm : commonAt h x = some xcm) (hxprev : xcm.prev_sibling = none)
    (hnc : n ≠ c) (hxc : x ≠ c) :
    add_child h c n =
      (setFirstChild (setNext (setPrev h x (some n)) n (some x)) c (some n),
       true) := by
  have h2c : (setNext (setPrev h x (some n)) n (some x))[c]? =
      some (.containerNode cm (some x) (some z)) := by
    rw [getElem_setNext_ne _ n c (some x) (fun e => hnc e.symm),
      getElem_setPrev_ne h x c (some n) (fun e => hxc e.symm), hc]
  have h3c : (setFirstChild (setNext (setPrev h x (some n)) n (some x)) c
      (some n))[c]? = some (.containerNode cm (some n) (some z)) :=
    getElem_setFirstChild_self _ c (some n) cm (some x) (some z) h2c
  have hlast : lastChildAt (setFirstChild (setNext (setPrev h x (some n)) n
      (some x)) c (some n)) c = some z := by
    unfold lastChildAt
    rw [h3c]
  unfold add_child
  rw [hncm]
  simp only [hp, hpr, hnx, Option.isSome_none, Bool.false_eq_true, if_false,
    hc, hxcm, hxprev, hlast]

theorem add_child_preserves (h : Heap) (c n : LayerId) (l : List LayerId)
    (hinv : ContainerInv h c l) (hn : n < h.length) (hnc : n ≠ c)
    (hnl : n ∉ l) (ncm : CommonLayer) (hncm : commonAt h n = some ncm)
    (hp : ncm.parent = none) (hpr : ncm.prev_sibling = none)
    (hnx : ncm.next_sibling = none) :
    (add_child h c n).2 = true ∧
      ContainerInv (add_child h c n).1 c (n :: l) := by
  obtain ⟨⟨cm, hc⟩, hchain, hnodup, hbnd⟩ := hinv
  cases l with
  | nil =>
    have hc0 : h[c]? = some (.containerNode cm none none) := by
      simpa using hc
    have heq := add_child_result_empty h c n cm ncm hc0 hncm hp hpr hnx
    rw [heq]
    refine ⟨rfl, ?_, ?_, ?_, ?_⟩
    · refine ⟨cm, ?_⟩
      have h1c : (setFirstChild h c (some n))[c]? =
          some (.containerNode cm (some n) none) :=
        getElem_setFirstChild_self h c (some n) cm none none hc0
      have := getElem_setLastChild_self (setFirstChild h c (some n)) c
        (some n) cm (some n) none h1c
      simpa using this
    · have hcn : commonAt
          (setLastChild (setFirstChild h c (some n)) c (some n)) n =
          some ncm := by
        rw [commonAt_setLastChild, commonAt_setFirstChild, hncm]
      simp [chainB, hcn, hpr, hnx]
    · simp
    · intro i hi
      have hi' : i = n := by simpa using hi
      subst hi'
      constructor
      · rw [length_setLastChild, length_setFirstChild]
        exact hn
      · exact hnc
  | cons x xs =>
    obtain ⟨z, hz⟩ : ∃ z, (x :: xs).getLast? = some z := by
      rcases hgl : (x :: xs).getLast? with _ | z
      · rw [List.getLast?_eq_none_iff] at hgl
        exact absurd hgl (by simp)
      · exact ⟨z, rfl⟩
    have hc0 : h[c]? = some (.containerNode cm (some x) (some z)) := by
      rw [hz] at hc
      simpa using hc
    have hxmem : x ∈ x :: xs := by simp
    have hxc : x ≠ c := (hbnd x hxmem).2
    have hnx' : n ≠ x := fun e => hnl (e ▸ hxmem)
    simp only [chainB] at hchain
    rcases hxcm : commonAt h x with _ | xcm
    · rw [hxcm] at hchain
      exact absurd hchain (by simp)
    · rw [hxcm] at hchain
      simp only [Bool.and_eq_true, decide_eq_true_eq] at hchain
      obtain ⟨⟨hxprev, hxnext⟩, hrest⟩ := hchain
      have heq := add_child_result_cons h c n x z cm ncm xcm hc0 hncm hp hpr
        hnx hxcm hxprev hnc hxc
      rw [heq]
      have h2c : (setNext (setPrev h x (some n)) n (some x))[c]? =
          some (.containerNode cm (some x) (some z)) := by
        rw [getElem_setNext_ne _ n c (some x) (fun e => hnc e.symm),
          getElem_setPrev_ne h x c (some n) (fun e => hxc e.symm), hc0]
      have h3c : (setFirstChild (setNext (setPrev h x (some n)) n (some x)) c
          (some n))[c]? = some (.containerNode cm (some n) (some z)) :=
        getElem_setFirstChild_self _ c (some n) cm (some x) (some z) h2c
      have cAn : commonAt (setFirstChild (setNext (setPrev h x (some n)) n
          (some x)) c (some n)) n = some { ncm with next_sibling := some x } := by
        rw [commonAt_setFirstChild, commonAt_setNext_self,
          commonAt_setPrev_ne h x n (some n) hnx', hncm]
        rfl
      have cAx : commonAt (setFirstChild (setNext (setPrev h x (some n)) n
          (some x)) c (some n)) x = some { xcm with prev_sibling := some n } := by
        rw [commonAt_setFirstChild,
          commonAt_setNext_ne _ n x (some x) (fun e => hnx' e.symm),
          commonAt_setPrev_self, hxcm]
        rfl
      have cAy : ∀ y ∈ xs, commonAt (setFirstChild (setNext (setPrev h x
          (some n)) n (some x)) c (some n)) y = commonAt h y := by
        intro y hy
        have hyx : y ≠ x := by
          intro e
          subst e
          exact (List.nodup_cons.mp hnodup).1 hy
        have hyn : y ≠ n := fun e => hnl (by simp [← e, hy])
        rw [commonAt_setFirstChild,
          commonAt_setNext_ne _ n y (some x) hyn,
          commonAt_setPrev_ne h x y (some n) hyx]
      refine ⟨rfl, ?_, ?_, ?_, ?_⟩
      · refine ⟨cm, ?_⟩
        rw [h3c]
        simp [List.getLast?_cons_cons, hz]
      · have hrest' : chainB (setFirstChild (setNext (setPrev h x (some n)) n
            (some x)) c (some n)) (some x) xs = true := by
          rw [chainB_congr h _ xs cAy (some x)]
          exact hrest
        simp [chainB, cAn, cAx, hpr, hxnext, hrest']
      · rw [List.nodup_cons]
        exact ⟨hnl, hnodup⟩
      · intro i hi
        rw [length_setFirstChild, length_setNext, length_setPrev]
        rcases List.mem_cons.mp hi with hi1 | hi2
        · subst hi1
          exact ⟨hn, hnc⟩
        · exact hbnd i hi2

theorem length_add_child (h : Heap) (c n : LayerId) :
    (add_child h c n).1.length = h.length := by
  unfold add_child
  repeat' split
  all_goals try rfl
  all_goals dsimp only
  all_goals split
  all_goals
    simp [length_setLastChild, length_setFirstChild, length_setNext,
      length_setPrev]

theorem commonAt_add_child_other (h : Heap) (c n : LayerId)
    (l : List LayerId) (hinv : ContainerInv h c l) (ncm : CommonLayer)
    (hncm : commonAt h n = some ncm) (hp : ncm.parent = none)
    (hpr : ncm.prev_sibling = none) (hnx : ncm.next_sibling = none)
    (hnc : n ≠ c) (i : LayerId) (hin : i ≠ n) (hic : i ≠ c)
    (hil : i ∉ l) : commonAt (add_child h c n).1 i = commonAt h i := by
  obtain ⟨⟨cm, hc⟩, hchain, hnodup, hbnd⟩ := hinv
  cases l with
  | nil =>
    have hc0 : h[c]? = some (.containerNode cm none none) := by
      simpa using hc
    rw [add_child_result_empty h c n cm ncm hc0 hncm hp hpr hnx]
    rw [commonAt_setLastChild, commonAt_setFirstChild]
  | cons x xs =>
    obtain ⟨z, hz⟩ : ∃ z, (x :: xs).getLast? = some z := by
      rcases hgl : (x :: xs).getLast? with _ | z
      · rw [List.getLast?_eq_none_iff] at hgl
        exact absurd hgl (by simp)
      · exact ⟨z, rfl⟩
    have hc0 : h[c]? = some (.containerNode cm (some x) (some z)) := by
      rw [hz] at hc
      simpa using hc
    have hxmem : x ∈ x :: xs := by simp
    have hxc : x ≠ c := (hbnd x hxmem).2
    have hix : i ≠ x := fun e => hil (e ▸ hxmem)
    simp only [chainB] at hchain
    rcases hxcm : commonAt h x with _ | xcm
    · rw [hxcm] at hchain
      exact absurd hchain (by simp)
    · rw [hxcm] at hchain
      simp only [Bool.and_eq_true, decide_eq_true_eq] at hchain
      obtain ⟨⟨hxprev, hxnext⟩, hrest⟩ := hchain
      rw [add_child_result_cons h c n x z cm ncm xcm hc0 hncm hp hpr hnx
        hxcm hxprev hnc hxc]
      rw [commonAt_setFirstChild, commonAt_setNext_ne _ n i (some x) hin,
        commonAt_setPrev_ne h x i (some n) hix]

theorem addAll_inv (c : LayerId) : ∀ (ns : List LayerId) (h : Heap)
    (l : List LayerId), ContainerInv h c l → ns.Nodup →
    (∀ i ∈ ns, i ∉ l) →
    (∀ i ∈ ns, i < h.length ∧ i ≠ c ∧
      ∃ icm, commonAt h i = some icm ∧ icm.parent = none ∧
        icm.prev_sibling = none ∧ icm.next_sibling = none) →
    (addAll h c ns).2 = true ∧
      ContainerInv (addAll h c ns).1 c (ns.reverse ++ l) := by
  intro ns
  induction ns with
  | nil =>
    intro h l hinv _ _ _
    exact ⟨rfl, by simpa using hinv⟩
  | cons n ns ih =>
    intro h l hinv hnodup hdisj hfresh
    have hnmem : n ∈ n :: ns := by simp
    obtain ⟨hn, hnc, ncm, hncm, hp, hpr, hnx⟩ := hfresh n hnmem
    have hnl : n ∉ l := hdisj n hnmem
    obtain ⟨hok, hinv'⟩ := add_child_preserves h c n l hinv hn hnc hnl ncm
      hncm hp hpr hnx
    have hns : ∀ i ∈ ns, i ∉ n :: l := by
      intro i hi
      rw [List.mem_cons]
      rintro (e | e)
      · subst e
        exact (List.nodup_cons.mp hnodup).1 hi
      · exact hdisj i (by simp [hi]) e
    have hfresh' : ∀ i ∈ ns, i < (add_child h c n).1.length ∧ i ≠ c ∧
        ∃ icm, commonAt (add_child h c n).1 i = some icm ∧
          icm.parent = none ∧ icm.prev_sibling = none ∧
          icm.next_sibling = none := by
      intro i hi
      obtain ⟨hi1, hi2, icm, hi3, hi4, hi5, hi6⟩ := hfresh i (by simp [hi])
      have hin : i ≠ n := fun e => (List.nodup_cons.mp hnodup).1 (e ▸ hi)
      have hil : i ∉ l := hdisj i (by simp [hi])
      refine ⟨by rw [length_add_child]; exact hi1, hi2, icm, ?_, hi4, hi5, hi6⟩
      rw [commonAt_add_child_other h c n l hinv ncm hncm hp hpr hnx hnc i
        hin hi2 hil]
      exact hi3
    obtain ⟨hok2, hinv2⟩ := ih (add_child h c n).1 (n :: l) hinv'
      (List.nodup_cons.mp hnodup).2 hns hfresh'
    constructor
    · simp only [addAll, hok, hok2, Bool.and_self]
    · have : ns.reverse ++ n :: l = (n :: ns).reverse ++ l := by simp
      rw [this] at hinv2
      simpa [addAll] using hinv2

theorem foldl_concat_eq_append (l acc : List Nat) :
    l.foldl (fun a t => a.concat t) acc = acc ++ l := by
  induction l generalizing acc with
  | nil => simp
  | cons x xs ih =>
    rw [List.foldl_cons, ih]
    simp

/-- Claim C5: `Image::new` produces an image with no texture; dropping an
image with texture handle `T` performs exactly one `delete_textures`
call, passed exactly the slice `[T]`; dropping an image with no texture
performs no `delete_textures` call. -/
theorem image_texture_lifecycle :
    (∀ d : Nat, (Image.new d).texture = none) ∧
    (∀ (d t : Nat), Image.dropCalls { data := d, texture := some t } =
      [[t]]) ∧
    (∀ d : Nat, Image.dropCalls { data := d, texture := none } = []) :=
  ⟨fun _ => rfl, fun _ _ => rfl, fun _ => rfl⟩

/-- Claim C6: a `BasicImageData` built from size, stride, format and a byte
buffer hands exactly that byte buffer to the `with_data` callback and
reports exactly the construction arguments from `size()`, `stride()`
and `format()`. -/
theorem basic_image_data_roundtrip (T : Type) (s : Size2D) (st : Nat)
    (fm : Format) (bytes : List Nat) (f : List Nat → T) :
    (BasicImageData.new s st fm bytes).with_data f = f bytes ∧
    (BasicImageData.new s st fm bytes).size' = s ∧
    (BasicImageData.new s st fm bytes).stride' = st ∧
    (BasicImageData.new s st fm bytes).format' = fm :=
  ⟨rfl, rfl, rfl, rfl⟩

/-- Claim C7: `Layer::with_common` invokes the visitor on the embedded
`CommonLayer` of whichever variant the layer is, stores the visitor's
updated common back into that variant (payload unchanged), and returns
the visitor's result.  Quantification over the result type and the
visitor makes the single invocation observable: the result is always
exactly the visitor's value on the embedded common. -/
theorem with_common_dispatch (T : Type) (l : LayerNode)
    (f : CommonLayer → CommonLayer × T) :
    (l.with_common f).2 = (f l.common).2 ∧
    (l.with_common f).1 = l.setCommon (f l.common).1 := by
  cases l <;> exact ⟨rfl, rfl⟩

/-- Claim C8: the `CommonLayer()` constructor yields the identity transform
and empty parent/sibling links, and `set_transform` stores any matrix
verbatim (no validation) while leaving the three links untouched. -/
theorem common_layer_construct_set_transform :
    (mkCommonLayer.parent = none ∧ mkCommonLayer.prev_sibling = none ∧
     mkCommonLayer.next_sibling = none ∧
     mkCommonLayer.transform = identityMatrix) ∧
    (∀ (cm : CommonLayer) (m : Matrix4),
      (cm.set_transform m).transform = m ∧
      (cm.set_transform m).parent = cm.parent ∧
      (cm.set_transform m).prev_sibling = cm.prev_sibling ∧
      (cm.set_transform m).next_sibling = cm.next_sibling) :=
  ⟨⟨rfl, rfl, rfl, rfl⟩, fun _ _ => ⟨rfl, rfl, rfl, rfl⟩⟩

/-- Claim C9: the `TiledImageLayer` constructor copies the input tiles in
order (same images, same order, same length), stores `tiles_across`
verbatim for any value (no divisibility validation), and embeds a
freshly detached `CommonLayer` with the identity transform. -/
theorem tiled_image_layer_construct (in_tiles : List Nat)
    (tiles_across : Nat) :
    mkTiledImageLayer in_tiles tiles_across =
      .tiledNode mkCommonLayer in_tiles tiles_across ∧
    (mkTiledImageLayer in_tiles tiles_across).common = mkCommonLayer ∧
    mkCommonLayer.parent = none ∧ mkCommonLayer.prev_sibling = none ∧
    mkCommonLayer.next_sibling = none ∧
    mkCommonLayer.transform = identityMatrix := by
  have htiles : mkTiledImageLayer in_tiles tiles_across =
      .tiledNode mkCommonLayer in_tiles tiles_across := by
    unfold mkTiledImageLayer
    rw [foldl_concat_eq_append]
    simp
  exact ⟨htiles, by rw [htiles]; rfl, rfl, rfl, rfl, rfl⟩

/-- Claim C3: `add_child` with a node that already has a parent, a prev
sibling or a next sibling fires one of the three leading assertions:
the call aborts (`false` flag) and returns the heap exactly as it was,
so the container's child list and every sibling link are unchanged. -/
theorem add_child_attached_aborts (h : Heap) (c n : LayerId)
    (ncm : CommonLayer) (hncm : commonAt h n = some ncm)
    (hbad : ncm.parent ≠ none ∨ ncm.prev_sibling ≠ none ∨
      ncm.next_sibling ≠ none) :
    add_child h c n = (h, false) := by
  unfold add_child
  simp only [hncm]
  rcases hbad with hb | hb | hb
  · simp [Option.ne_none_iff_isSome.mp hb]
  · rcases hpar : ncm.parent with _ | p
    · simp [hpar, Option.ne_none_iff_isSome.mp hb]
    · simp [hpar]
  · rcases hpar : ncm.parent with _ | p
    · rcases hprev : ncm.prev_sibling with _ | q
      · simp [hpar, hprev, Option.ne_none_iff_isSome.mp hb]
      · simp [hpar, hprev]
    · simp [hpar]

/-- Claim C4: `each_child` on a container whose `first_child` is empty invokes
the visitor zero times; on a container whose children form a valid chain
`x :: xs`, a visitor that answers "stop" (`false`) on its first
invocation is invoked exactly once (on `x`), whatever the number of
children. -/
theorem each_child_empty_and_early_stop :
    (∀ (h : Heap) (c : LayerId) (f : LayerId → Bool),
      firstChildAt h c = none → each_child h c f = []) ∧
    (∀ (h : Heap) (c : LayerId) (f : LayerId → Bool) (x : LayerId)
      (xs : List LayerId), chainB h none (x :: xs) = true →
      firstChildAt h c = some x → f x = false → each_child h c f = [x]) := by
  constructor
  · intro h c f hfc
    unfold each_child
    rw [hfc]
    cases h.length <;> rfl
  · intro h c f x xs hchain hfc hfx
    unfold each_child
    rw [hfc]
    simp only [chainB] at hchain
    rcases hxcm : commonAt h x with _ | xcm
    · rw [hxcm] at hchain
      exact absurd hchain (by simp)
    · have hx : x < h.length := by
        unfold commonAt at hxcm
        rcases hxe : h[x]? with _ | nd
        · rw [hxe] at hxcm
          exact absurd hxcm (by simp)
        · exact lt_length_of_getElem_eq h x nd hxe
      rcases hlen : h.length with _ | m
      · rw [hlen] at hx
        exact absurd hx (Nat.not_lt_zero x)
      · simp [eachChildFrom, hfx]

/-- Claim C10: the internal assertion of `add_child` on the current first
child (`assert first_child_common.prev_sibling.is_none()`) cannot fire
on a well-formed container: if the container's first child (when
present) has an empty `prev_sibling`, then `add_child` with a detached
new child runs to completion (no assertion aborts the call). -/
theorem add_child_internal_assert_safe (h : Heap) (c n : LayerId)
    (cm : CommonLayer) (fc lc : Option LayerId) (ncm : CommonLayer)
    (hc : h[c]? = some (.containerNode cm fc lc))
    (hncm : commonAt h n = some ncm)
    (hp : ncm.parent = none) (hpr : ncm.prev_sibling = none)
    (hnx : ncm.next_sibling = none)
    (hfc : ∀ x, fc = some x → ∃ xcm, commonAt h x = some xcm ∧
      xcm.prev_sibling = none) :
    (add_child h c n).2 = true := by
  unfold add_child
  simp only [hncm, hp, hpr, hnx, Option.isSome_none, Bool.false_eq_true,
    if_false, hc]
  cases fc with
  | none => simp only []
  | some x =>
    obtain ⟨xcm, hxcm, hxprev⟩ := hfc x rfl
    simp only [hxcm, hxprev, Option.isSome_none, Bool.false_eq_true,
      if_false]

theorem detachedAt_elim (h : Heap) (i : LayerId)
    (hd : detachedAt h i = true) :
    ∃ icm, commonAt h i = some icm ∧ icm.parent = none ∧
      icm.prev_sibling = none ∧ icm.next_sibling = none := by
  unfold detachedAt at hd
  rcases hcm : commonAt h i with _ | icm
  · rw [hcm] at hd
    exact absurd hd (by simp)
  · rw [hcm] at hd
    simp only [Bool.and_eq_true, Option.isNone_iff_eq_none] at hd
    exact ⟨icm, rfl, hd.1.1, hd.1.2, hd.2⟩

/-- Claim C1 (amended): inserting a detached node `n` into a well-formed
container `c` (child list `l`) succeeds, makes `n` the new
`first_child`, gives `n` no `prev_sibling` and, as `next_sibling`, the
previous first child (if any) — but `n`'s `parent` field is NOT set to
`c`: the `add_child` of the source never assigns `parent`, so it stays
empty. -/
theorem add_child_links_no_parent (h : Heap) (c n : LayerId)
    (l : List LayerId) (hinv : ContainerInv h c l) (hn : n < h.length)
    (hnc : n ≠ c) (hnl : n ∉ l) (ncm : CommonLayer)
    (hncm : commonAt h n = some ncm) (hp : ncm.parent = none)
    (hpr : ncm.prev_sibling = none) (hnx : ncm.next_sibling = none) :
    (add_child h c n).2 = true ∧
    commonAt (add_child h c n).1 n = some
      { parent := none, prev_sibling := none, next_sibling := l.head?,
        transform := ncm.transform } ∧
    firstChildAt (add_child h c n).1 c = some n := by
  obtain ⟨⟨cm, hc⟩, hchain, hnodup, hbnd⟩ := hinv
  cases l with
  | nil =>
    have hc0 : h[c]? = some (.containerNode cm none none) := by
      simpa using hc
    rw [add_child_result_empty h c n cm ncm hc0 hncm hp hpr hnx]
    refine ⟨rfl, ?_, ?_⟩
    · rw [commonAt_setLastChild, commonAt_setFirstChild, hncm]
      cases ncm
      simp_all
    · have h1c : (setFirstChild h c (some n))[c]? =
          some (.containerNode cm (some n) none) :=
        getElem_setFirstChild_self h c (some n) cm none none hc0
      have h2c := getElem_setLastChild_self (setFirstChild h c (some n)) c
        (some n) cm (some n) none h1c
      unfold firstChildAt
      rw [h2c]
  | cons x xs =>
    obtain ⟨z, hz⟩ : ∃ z, (x :: xs).getLast? = some z := by
      rcases hgl : (x :: xs).getLast? with _ | z
      · rw [List.getLast?_eq_none_iff] at hgl
        exact absurd hgl (by simp)
      · exact ⟨z, rfl⟩
    have hc0 : h[c]? = some (.containerNode cm (some x) (some z)) := by
      rw [hz] at hc
      simpa using hc
    have hxmem : x ∈ x :: xs := by simp
    have hxc : x ≠ c := (hbnd x hxmem).2
    have hnex : n ≠ x := fun e => hnl (e ▸ hxmem)
    simp only [chainB] at hchain
    rcases hxcm : commonAt h x with _ | xcm
    · rw [hxcm] at hchain
      exact absurd hchain (by simp)
    · rw [hxcm] at hchain
      simp only [Bool.and_eq_true, decide_eq_true_eq] at hchain
      obtain ⟨⟨hxprev, _⟩, _⟩ := hchain
      rw [add_child_result_cons h c n x z cm ncm xcm hc0 hncm hp hpr hnx
        hxcm hxprev hnc hxc]
      refine ⟨rfl, ?_, ?_⟩
      · rw [commonAt_setFirstChild, commonAt_setNext_self,
          commonAt_setPrev_ne h x n (some n) hnex, hncm]
        cases ncm
        simp_all
      · have h2c : (setNext (setPrev h x (some n)) n (some x))[c]? =
            some (.containerNode cm (some x) (some z)) := by
          rw [getElem_setNext_ne _ n c (some x) (fun e => hnc e.symm),
            getElem_setPrev_ne h x c (some n) (fun e => hxc e.symm), hc0]
        have h3c := getElem_setFirstChild_self _ c (some n) cm (some x)
          (some z) h2c
        unfold firstChildAt
        rw [h3c]

/-- Counterexample to claim C1 as stated: inserting the detached image
layer (id 1) into the fresh container (id 0) succeeds, yet afterwards
the new child's `parent` field does not refer to the container — the
source's `add_child` never assigns `parent`, so it is still empty. -/
theorem add_child_parent_counterexample :
    (add_child [mkContainerLayer, mkImageLayer 7] 0 1).2 = true ∧
    ¬ ((commonAt (add_child [mkContainerLayer, mkImageLayer 7] 0 1).1
        1).map CommonLayer.parent = some (some 0)) ∧
    (commonAt (add_child [mkContainerLayer, mkImageLayer 7] 0 1).1
        1).map CommonLayer.parent = some none := by
  have hval : (commonAt (add_child [mkContainerLayer, mkImageLayer 7] 0
      1).1 1).map CommonLayer.parent = some none := rfl
  refine ⟨rfl, ?_, hval⟩
  intro hcontra
  rw [hval] at hcontra
  simp at hcontra

/-- Claim C2: starting from an empty container `c` and pairwise-distinct
detached nodes `ns`, every `add_child` in the sequence succeeds, and
afterwards (a) `each_child` with a never-stopping visitor visits
exactly the children in reverse insertion order, (b) `first_child` is
the head and `last_child` the final element of that reversed order, and
(c) the sibling links form a doubly-linked chain along it: every node's
`next_sibling` is the following node (none at the end, which is
`last_child`) and every node's `prev_sibling` points back at the
preceding one (none at the head). -/
theorem add_child_each_child_reverse (h : Heap) (c : LayerId)
    (cm : CommonLayer) (ns : List LayerId)
    (hc : h[c]? = some (.containerNode cm none none))
    (hnd : ns.Nodup)
    (hfresh : ∀ i ∈ ns, i < h.length ∧ i ≠ c ∧ detachedAt h i = true) :
    (addAll h c ns).2 = true ∧
    each_child (addAll h c ns).1 c (fun _ => true) = ns.reverse ∧
    firstChildAt (addAll h c ns).1 c = ns.reverse.head? ∧
    lastChildAt (addAll h c ns).1 c = ns.reverse.getLast? ∧
    chainB (addAll h c ns).1 none ns.reverse = true := by
  have hinv0 : ContainerInv h c [] :=
    ⟨⟨cm, by simpa using hc⟩, rfl, List.nodup_nil, by simp⟩
  have hfresh' : ∀ i ∈ ns, i < h.length ∧ i ≠ c ∧
      ∃ icm, commonAt h i = some icm ∧ icm.parent = none ∧
        icm.prev_sibling = none ∧ icm.next_sibling = none := by
    intro i hi
    obtain ⟨h1, h2, h3⟩ := hfresh i hi
    exact ⟨h1, h2, detachedAt_elim h i h3⟩
  obtain ⟨hok, hinv⟩ := addAll_inv c ns h [] hinv0 hnd (by simp) hfresh'
  rw [List.append_nil] at hinv
  obtain ⟨⟨cm', hc'⟩, hchain, hnd', hbnd⟩ := hinv
  have hfc : firstChildAt (addAll h c ns).1 c = ns.reverse.head? := by
    unfold firstChildAt
    rw [hc']
  have hlc : lastChildAt (addAll h c ns).1 c = ns.reverse.getLast? := by
    unfold lastChildAt
    rw [hc']
  refine ⟨hok, ?_, hfc, hlc, hchain⟩
  unfold each_child
  rw [hfc]
  exact eachChildFrom_of_chainB (addAll h c ns).1 (fun _ => true)
    ns.reverse none (addAll h c ns).1.length hchain
    (length_le_of_nodup_lt ns.reverse (addAll h c ns).1.length hnd'
      (fun x hx => (hbnd x hx).1))
    (fun _ _ => rfl)

theorem add_child_links_no_parent_witness :
    (add_child [mkContainerLayer, mkImageLayer 7] 0 1).2 = true ∧
    commonAt (add_child [mkContainerLayer, mkImageLayer 7] 0 1).1 1 = some
      { parent := none, prev_sibling := none, next_sibling := none,
        transform := mkCommonLayer.transform } ∧
    firstChildAt (add_child [mkContainerLayer, mkImageLayer 7] 0 1).1 0 =
      some 1 :=
  add_child_links_no_parent [mkContainerLayer, mkImageLayer 7] 0 1 []
    ⟨⟨mkCommonLayer, rfl⟩, rfl, List.nodup_nil, by simp⟩
    (by decide) (by decide) (by simp) mkCommonLayer rfl rfl rfl rfl

theorem add_child_each_child_reverse_witness :
    (addAll [mkContainerLayer, mkImageLayer 4, mkImageLayer 5] 0
      [1, 2]).2 = true ∧
    each_child (addAll [mkContainerLayer, mkImageLayer 4, mkImageLayer 5]
      0 [1, 2]).1 0 (fun _ => true) = [2, 1] :=
  have happ := add_child_each_child_reverse
    [mkContainerLayer, mkImageLayer 4, mkImageLayer 5] 0 mkCommonLayer
    [1, 2] rfl (by decide) (by decide)
  ⟨happ.1, happ.2.1⟩

theorem add_child_attached_aborts_witness :
    add_child [mkContainerLayer,
      .imageNode { mkCommonLayer with parent := some 0 } 6] 0 1 =
    ([mkContainerLayer,
      .imageNode { mkCommonLayer with parent := some 0 } 6], false) :=
  add_child_attached_aborts _ 0 1 { mkCommonLayer with parent := some 0 }
    rfl (Or.inl (by decide))

theorem each_child_empty_and_early_stop_witness :
    each_child [mkContainerLayer] 0 (fun _ => true) = [] ∧
    each_child [.containerNode mkCommonLayer (some 1) (some 2),
      .imageNode { mkCommonLayer with next_sibling := some 2 } 8,
      .imageNode { mkCommonLayer with prev_sibling := some 1 } 9] 0
      (fun _ => false) = [1] :=
  ⟨each_child_empty_and_early_stop.1 [mkContainerLayer] 0
      (fun _ => true) rfl,
   each_child_empty_and_early_stop.2 _ 0 (fun _ => false) 1 [2]
      (by decide) rfl rfl⟩

theorem add_child_internal_assert_safe_witness :
    (add_child [.containerNode mkCommonLayer (some 1) (some 1),
      .imageNode mkCommonLayer 3, .imageNode mkCommonLayer 4] 0 2).2 =
      true :=
  add_child_internal_assert_safe _ 0 2 mkCommonLayer (some 1) (some 1)
    mkCommonLayer rfl rfl rfl rfl rfl
    (fun x hx => by
      injection hx with h1
      subst h1
      exact ⟨mkCommonLayer, rfl, rfl⟩)
